import Mathlib

/-!
Verification of the `configenv` package (plugins/config/src/configenv/configenv.go):
an in-memory environment of string variables with two shell-quoted textual
serializations, a tar-archive export, and a line-oriented parser.

Strings are modelled by Lean `String` (a structure over `List Char`); the
byte-wise lexicographic order used by Go's `sort.Strings` coincides on
UTF-8 text with the codepoint-wise lexicographic order modelled here.
Go's `strings.Replace(s, old, new, -1)` (leftmost, non-overlapping) is
modelled by `replaceL` on character lists, made structurally recursive with
a fuel argument so that it evaluates inside the kernel.
-/

/-- Codepoint-wise (equivalently, for UTF-8 text, byte-wise) lexicographic
order on character lists, as Go compares strings. -/
def lexLe : List Char → List Char → Bool
  | [], _ => true
  | _ :: _, [] => false
  | a :: as, b :: bs =>
    if a.val < b.val then true
    else if a = b then lexLe as bs
    else false

/-- The string order `sort.Strings` sorts by. -/
def strLe (a b : String) : Bool :=
  lexLe a.data b.data

/-- Fuel-driven core of leftmost non-overlapping replacement; with fuel at
least the length of the subject it agrees with Go's `strings.Replace`. -/
def replaceAux (pat rep : List Char) : Nat → List Char → List Char
  | _, [] => []
  | 0, s => s
  | fuel + 1, c :: rest =>
    if pat.isPrefixOf (c :: rest) ∧ pat ≠ [] then
      rep ++ replaceAux pat rep fuel ((c :: rest).drop pat.length)
    else
      c :: replaceAux pat rep fuel rest

/-- Leftmost non-overlapping replacement of every occurrence of `pat` by
`rep`, on character lists: Go's `strings.Replace(s, pat, rep, -1)` for a
nonempty pattern. -/
def replaceL (pat rep s : List Char) : List Char :=
  replaceAux pat rep s.length s

/-- Go `strings.Replace(s, pat, rep, -1)` on strings (nonempty pattern). -/
def Strings.Replace (s pat rep : String) : String :=
  String.mk (replaceL pat.data rep.data s.data)

/-- Go `strings.Join(elems, sep)`. -/
def Strings.Join (elems : List String) (sep : String) : String :=
  match elems with
  | [] => ""
  | [x] => x
  | x :: xs => x ++ sep ++ Strings.Join xs sep

/-- Source: `SingleQuoteEscape` escapes the value as if it were shell-quoted
in single quotes: `strings.Replace(value, "'", "'\\''", -1)`. -/
def SingleQuoteEscape (value : String) : String :=
  Strings.Replace value "'" "'\\''"

/-- Source: the `Env` struct — a representation for global or app
environment. The Go `map[string]string` is modelled as an association list
looked up by key (a well-formed `Env`, as built by the package, has
pairwise-distinct keys, stated as a hypothesis where a proof needs it). -/
structure Env where
  name : String
  env : List (String × String)
  filename : String
  EscapeNewlines : Bool
deriving DecidableEq

/-- Source: `Get` — returns the value and whether the key exists
(`v, ok := e.env[key]`, modelled as an optional value). -/
def Env.Get (e : Env) (key : String) : Option String :=
  e.env.lookup key

/-- Source: `GetDefault` — the stored value, or the default if absent. -/
def Env.GetDefault (e : Env) (key defaultValue : String) : String :=
  (e.Get key).getD defaultValue

/-- Source: `GetBoolDefault` — the default if the key is absent, otherwise
`v != "0"`. -/
def Env.GetBoolDefault (e : Env) (key : String) (defaultValue : Bool) : Bool :=
  match e.Get key with
  | none => defaultValue
  | some v => v != "0"

/-- Source: `Set` — `e.env[key] = value` (map overwrite: the key's previous
binding, if any, is dropped). -/
def Env.Set (e : Env) (key value : String) : Env :=
  { e with env := (key, value) :: e.env.filter (fun p => p.1 != key) }

/-- Source: `Unset` — `delete(e.env, key)`. -/
def Env.Unset (e : Env) (key : String) : Env :=
  { e with env := e.env.filter (fun p => p.1 != key) }

/-- Source: `Keys` — all keys of the map, sorted ascending
(`sort.Strings(keys)`). -/
def Env.Keys (e : Env) : List String :=
  (e.env.map Prod.fst).insertionSort (fun a b => strLe a b = true)

/-- Source: `Len` — the number of items. -/
def Env.Len (e : Env) : Nat :=
  e.env.length

/-- Source: `Map` — the underlying mapping itself (aliasing accessor). -/
def Env.Map (e : Env) : List (String × String) :=
  e.env

/-- Source: the loop body of `StringWithPrefixAndSeparator`: one entry
`prefix + k + "='" + v + "'"` where `v` is the quote-escaped value, with
newlines further rewritten to `'$'\n''` when `EscapeNewlines` is set. -/
def Env.formatEntry (e : Env) (pre k : String) : String :=
  let v := SingleQuoteEscape (e.GetDefault k "")
  let v := if e.EscapeNewlines then Strings.Replace v "\n" "'$'\\n''" else v
  pre ++ k ++ "='" ++ v ++ "'"

/-- Source: `StringWithPrefixAndSeparator` — formats every entry in `Keys`
order and joins them with the separator. -/
def Env.StringWithPrefixAndSeparator (e : Env) (pre separator : String) : String :=
  Strings.Join (e.Keys.map (e.formatEntry pre)) separator

/-- Source: `EnvfileString` — the contents of this Env in ENVFILE format. -/
def Env.EnvfileString (e : Env) : String :=
  e.StringWithPrefixAndSeparator "" "\n"

/-- Source: `ExportfileString` — the contents of this Env as bash exports. -/
def Env.ExportfileString (e : Env) : String :=
  e.StringWithPrefixAndSeparator "export " "\n"

/-- Source: `Merge` — for every key of `other` (in `Keys` order), set it in
the receiver to `other`'s value. -/
def Env.Merge (e : Env) (other : Env) : Env :=
  other.Keys.foldl (fun acc k => acc.Set k (other.GetDefault k "")) e

/-- Tar header fields the source sets: `Name`, `Mode` (0600) and `Size`
(the byte length of the value). -/
structure TarHeader where
  Name : String
  Mode : Nat
  Size : Nat
deriving DecidableEq

/-- One write against the tar stream: a header, or an entry's content. -/
inductive TarOp where
  | header (h : TarHeader)
  | content (bytes : String)
deriving DecidableEq

/-- The destination `io.Writer` wrapped in a `tar.Writer`, modelled as the
sequence of writes it received plus whether its writes fail (a failing
destination makes `WriteHeader`/`Write` return an error). -/
structure TarWriter where
  ops : List TarOp
  failWrites : Bool
deriving DecidableEq

/-- One write against the tar stream: the updated writer and the error
`tar.Writer.WriteHeader` or `tar.Writer.Write` would return. -/
def tarPut (w : TarWriter) (op : TarOp) : TarWriter × Except String Unit :=
  if w.failWrites then (w, Except.error "io error")
  else ({ w with ops := w.ops ++ [op] }, Except.ok ())

/-- Source: `ExportBundle` — for every key (in `Keys` order) write a header
`{Name: k, Mode: 0600, Size: len(val)}` and then the raw value bytes.
The source discards the error results of both writes (`tarfile.WriteHeader`
and `tarfile.Write` are called as statements) and ends with `return nil`,
modelled by keeping only the first component of `tarPut` and returning
`Except.ok ()` unconditionally. -/
def Env.ExportBundle (e : Env) (dest : TarWriter) : TarWriter × Except String Unit :=
  let w := e.Keys.foldl (fun w k =>
    let val := e.GetDefault k ""
    let hdr : TarHeader := { Name := k, Mode := 0o600, Size := val.utf8ByteSize }
    let w1 := (tarPut w (TarOp.header hdr)).1
    (tarPut w1 (TarOp.content val)).1) dest
  (w, Except.ok ())

/-- A filesystem access `Write` performs: creating (truncating) the backing
file, or writing a string to it. -/
inductive FsOp where
  | create (path : String)
  | writeFile (path : String) (contents : String)
deriving DecidableEq

/-- Source: `Write` — error out when the Env is not bound to a file;
otherwise `os.Create` the backing file (which truncates or creates it) and
write `ExportfileString` to it, returning any error. The filesystem is
modelled by the outcomes `createErr`/`writeErr` of the two calls, and the
accesses performed are returned alongside the result. -/
def Env.Write (e : Env) (createErr : Option String) (writeErr : Option String) :
    Except String Unit × List FsOp :=
  if e.filename = "" then
    (Except.error "this Env was created unbound to a file", [])
  else
    match createErr with
    | some err => (Except.error err, [FsOp.create e.filename])
    | none =>
      match writeErr with
      | some err =>
        (Except.error err,
          [FsOp.create e.filename, FsOp.writeFile e.filename e.ExportfileString])
      | none =>
        (Except.ok (),
          [FsOp.create e.filename, FsOp.writeFile e.filename e.ExportfileString])

/-- Split a character list at every occurrence of `sep` (Go
`strings.Split` on one character; an empty input gives one empty field). -/
def splitChar (sep : Char) : List Char → List (List Char)
  | [] => [[]]
  | c :: rest =>
    if c = sep then [] :: splitChar sep rest
    else
      match splitChar sep rest with
      | [] => [[c]]
      | l :: ls => (c :: l) :: ls

/-- Whether `pat` occurs as a contiguous sublist. -/
def occursIn (pat : List Char) : List Char → Bool
  | [] => pat.isEmpty
  | c :: rest => pat.isPrefixOf (c :: rest) || occursIn pat rest

/-- Split at the first occurrence of `pat`: the part before it and the part
after it, or `none` when `pat` does not occur. -/
def splitFirst (pat : List Char) : List Char → Option (List Char × List Char)
  | [] => none
  | c :: rest =>
    if pat.isPrefixOf (c :: rest) then some ([], (c :: rest).drop pat.length)
    else
      match splitFirst pat rest with
      | none => none
      | some (k, r) => some (c :: k, r)

/-- Inverse of the single-quote escaping: rewrite every occurrence of the
four-character idiom back to a literal single quote. -/
def unescapeQuotes (v : List Char) : List Char :=
  replaceL "'\\''".data "'".data v

/-- Modelled from the spec: one line of the on-disk format. The repository's
parsing routine (`parseEnvFromReader`, reached from `NewFromString`) is not
under `src/`; following §4.3 of the spec a line must have the shape
`KEY='...'` after an optional leading `export ` token, and the quoted part
is unescaped by the inverse of the §4.2 escaping rule. A line of any other
shape is a parse error (`none`). -/
def parseLine (line : List Char) : Option (List Char × List Char) :=
  let line := if "export ".data.isPrefixOf line then line.drop 7 else line
  match splitFirst "='".data line with
  | none => none
  | some (k, rest) =>
    match rest.getLast? with
    | some c =>
      if c = '\'' then some (k, unescapeQuotes rest.dropLast) else none
    | none => none

/-- Modelled from the spec: one step of the parsing routine (spec section
4.3): tolerate and skip a blank line, parse every other line as
`[export ]KEY='value'` via `parseLine`, and report a malformed line as a
parse error. -/
def parseStep (e : Env) (line : List Char) : Except String Env :=
  if line.isEmpty then Except.ok e
  else
    match parseLine line with
    | some (k, v) => Except.ok (e.Set (String.mk k) (String.mk v))
    | none => Except.error ("parse error: " ++ String.mk line)

/-- Modelled from the spec: the parsing routine behind `NewFromString`
(spec section 4.3): split the input into lines, run `parseStep` over them
failing on the first malformed line, and bind the resulting Env to the
given name and backing path. -/
def parseEnvFromString (name filename rep : String) : Except String Env :=
  (splitChar '\n' rep.data).foldlM parseStep
    { name := name, env := [], filename := filename, EscapeNewlines := false }

/-- Source: `NewFromString` — an env from the given ENVFILE contents,
unbound to a file (`parseEnvFromReader("<unknown>", "", ...)`). -/
def NewFromString (rep : String) : Except String Env :=
  parseEnvFromString "<unknown>" "" rep

/-- Source: the `String()` method — `return e.EnvfileString()`. (Declared
after the other `Env` methods so that the type name `String` stays
unambiguous inside the `Env` namespace.) -/
def Env.String (e : Env) :=
  e.EnvfileString

/-! ## Lemmas about `replaceL` -/

theorem replaceAux_nil (pat rep : List Char) (f : Nat) :
    replaceAux pat rep f [] = [] := by
  cases f <;> rfl

theorem replaceAux_fuel (pat rep : List Char) :
    ∀ f g s, s.length ≤ f → s.length ≤ g →
      replaceAux pat rep f s = replaceAux pat rep g s := by
  intro f
  induction f with
  | zero =>
    intro g s hf _
    have : s = [] := List.length_eq_zero.mp (Nat.le_zero.mp hf)
    subst this
    simp [replaceAux_nil]
  | succ f ih =>
    intro g s hf hg
    cases s with
    | nil => simp [replaceAux_nil]
    | cons c rest =>
      cases g with
      | zero => simp at hg
      | succ g =>
        show (if pat.isPrefixOf (c :: rest) ∧ pat ≠ [] then
            rep ++ replaceAux pat rep f ((c :: rest).drop pat.length)
          else c :: replaceAux pat rep f rest) =
          (if pat.isPrefixOf (c :: rest) ∧ pat ≠ [] then
            rep ++ replaceAux pat rep g ((c :: rest).drop pat.length)
          else c :: replaceAux pat rep g rest)
        by_cases h : pat.isPrefixOf (c :: rest) ∧ pat ≠ []
        · have hpat : 1 ≤ pat.length := by
            cases hp : pat with
            | nil => exact absurd hp h.2
            | cons a as => simp
          have hdrop : ((c :: rest).drop pat.length).length ≤ rest.length := by
            simp only [List.length_drop, List.length_cons]
            omega
          rw [if_pos h, if_pos h,
            ih g ((c :: rest).drop pat.length)
              (le_trans hdrop (Nat.lt_succ_iff.mp (Nat.lt_of_lt_of_le (Nat.lt_succ_self _) hf)))
              (le_trans hdrop (Nat.lt_succ_iff.mp (Nat.lt_of_lt_of_le (Nat.lt_succ_self _) hg)))]
        · rw [if_neg h, if_neg h,
            ih g rest (Nat.lt_succ_iff.mp (Nat.lt_of_lt_of_le (Nat.lt_succ_self _) hf))
              (Nat.lt_succ_iff.mp (Nat.lt_of_lt_of_le (Nat.lt_succ_self _) hg))]

theorem replaceL_nil (pat rep : List Char) : replaceL pat rep [] = [] := rfl

theorem replaceL_cons_pos {pat : List Char} (rep : List Char) {c : Char}
    {rest : List Char} (hp : pat ≠ []) (h : pat.isPrefixOf (c :: rest)) :
    replaceL pat rep (c :: rest) =
      rep ++ replaceL pat rep ((c :: rest).drop pat.length) := by
  have hpat : 1 ≤ pat.length := by
    cases hq : pat with
    | nil => exact absurd hq hp
    | cons a as => simp
  have hdrop : ((c :: rest).drop pat.length).length ≤ rest.length := by
    simp only [List.length_drop, List.length_cons]
    omega
  show replaceAux pat rep (rest.length + 1) (c :: rest) = _
  rw [show replaceAux pat rep (rest.length + 1) (c :: rest) =
      (if pat.isPrefixOf (c :: rest) ∧ pat ≠ [] then
        rep ++ replaceAux pat rep rest.length ((c :: rest).drop pat.length)
      else c :: replaceAux pat rep rest.length rest) from rfl,
    if_pos ⟨h, hp⟩,
    replaceAux_fuel pat rep rest.length ((c :: rest).drop pat.length).length
      ((c :: rest).drop pat.length) hdrop (le_refl _)]
  rfl

theorem replaceL_cons_neg (pat rep : List Char) {c : Char} {rest : List Char}
    (h : ¬ pat.isPrefixOf (c :: rest) = true) :
    replaceL pat rep (c :: rest) = c :: replaceL pat rep rest := by
  show replaceAux pat rep (rest.length + 1) (c :: rest) = _
  rw [show replaceAux pat rep (rest.length + 1) (c :: rest) =
      (if pat.isPrefixOf (c :: rest) ∧ pat ≠ [] then
        rep ++ replaceAux pat rep rest.length ((c :: rest).drop pat.length)
      else c :: replaceAux pat rep rest.length rest) from rfl,
    if_neg (fun hc => h hc.1)]
  rfl

theorem isPrefixOf_append_self (l t : List Char) :
    l.isPrefixOf (l ++ t) = true := by
  induction l with
  | nil => simp
  | cons a as ih => simpa [List.isPrefixOf] using ih

theorem isPrefixOf_cons_ne {p c : Char} {ps rest : List Char} (h : c ≠ p) :
    (p :: ps).isPrefixOf (c :: rest) = false := by
  simp [List.isPrefixOf, Ne.symm h]

theorem replaceL_append_pat {pat : List Char} (rep : List Char) (hp : pat ≠ [])
    (t : List Char) : replaceL pat rep (pat ++ t) = rep ++ replaceL pat rep t := by
  cases hq : pat with
  | nil => exact absurd hq hp
  | cons a as =>
    subst hq
    rw [show (a :: as) ++ t = a :: (as ++ t) from rfl,
      replaceL_cons_pos rep hp
        (by simpa using isPrefixOf_append_self (a :: as) t),
      show (a :: (as ++ t)).drop (a :: as).length = ((a :: as) ++ t).drop (a :: as).length from rfl,
      List.drop_left]

theorem replaceL_single_eq (x : Char) (rep : List Char) (rest : List Char) :
    replaceL [x] rep (x :: rest) = rep ++ replaceL [x] rep rest := by
  simpa using @replaceL_append_pat [x] rep (by simp) rest

theorem replaceL_single_ne {x c : Char} (rep : List Char) (rest : List Char)
    (h : c ≠ x) : replaceL [x] rep (c :: rest) = c :: replaceL [x] rep rest :=
  replaceL_cons_neg [x] rep (by simp [isPrefixOf_cons_ne h])

theorem mem_replaceL_single {x : Char} {rep s : List Char} {y : Char}
    (hy : y ∈ replaceL [x] rep s) : y ∈ rep ∨ (y ∈ s ∧ y ≠ x) := by
  induction s with
  | nil => simp [replaceL_nil] at hy
  | cons c rest ih =>
    by_cases hc : c = x
    · subst hc
      rw [replaceL_single_eq] at hy
      rcases List.mem_append.mp hy with h | h
      · exact Or.inl h
      · rcases ih h with h | h
        · exact Or.inl h
        · exact Or.inr ⟨List.mem_cons_of_mem _ h.1, h.2⟩
    · rw [replaceL_single_ne rep rest hc] at hy
      rcases List.mem_cons.mp hy with h | h
      · exact Or.inr ⟨by simp [h], h ▸ hc⟩
      · rcases ih h with h | h
        · exact Or.inl h
        · exact Or.inr ⟨List.mem_cons_of_mem _ h.1, h.2⟩

theorem replaceL_single_not_mem {x : Char} {rep s : List Char} (h : x ∉ s) :
    replaceL [x] rep s = s := by
  induction s with
  | nil => rfl
  | cons c rest ih =>
    have hc : c ≠ x := fun hc => h (by simp [hc])
    rw [replaceL_single_ne rep rest hc, ih (fun hm => h (List.mem_cons_of_mem _ hm))]

/-! ## The single-quote escaping and its inverse -/

/-- Character-list form of `SingleQuoteEscape`. -/
def escL (v : List Char) : List Char :=
  replaceL "'".data "'\\''".data v

theorem SingleQuoteEscape_data (v : String) :
    (SingleQuoteEscape v).data = escL v.data := rfl

theorem sqEsc_data : "'\\''".data = ['\'', '\\', '\'', '\''] := rfl

theorem sq_data : "'".data = ['\''] := rfl

theorem escL_nil : escL [] = [] := rfl

theorem escL_cons_sq (rest : List Char) :
    escL ('\'' :: rest) = "'\\''".data ++ escL rest := by
  unfold escL
  rw [sq_data, replaceL_single_eq]

theorem escL_cons_ne {c : Char} (rest : List Char) (h : c ≠ '\'') :
    escL (c :: rest) = c :: escL rest := by
  unfold escL
  rw [sq_data, replaceL_single_ne _ _ h]

theorem unescape_escape (v : List Char) : unescapeQuotes (escL v) = v := by
  induction v with
  | nil => rfl
  | cons c rest ih =>
    by_cases hc : c = '\''
    · subst hc
      rw [escL_cons_sq, show unescapeQuotes ("'\\''".data ++ escL rest) =
          "'".data ++ unescapeQuotes (escL rest) from
          replaceL_append_pat _ (by rw [sqEsc_data]; simp) _, ih]
      rfl
    · rw [escL_cons_ne rest hc]
      show replaceL "'\\''".data "'".data (c :: escL rest) = c :: rest
      rw [sqEsc_data,
        replaceL_cons_neg _ _ (by simp [isPrefixOf_cons_ne hc]), ← sqEsc_data]
      exact congrArg (c :: ·) ih

theorem mem_escL {y : Char} {v : List Char} (hy : y ∈ escL v) :
    y ∈ v ∨ y ∈ ['\'', '\\'] := by
  have := @mem_replaceL_single '\'' ("'\\''".data) v y
    (by simpa [escL, sq_data] using hy)
  rcases this with h | h
  · rw [sqEsc_data] at h
    right
    rcases List.mem_cons.mp h with h | h
    · simp [h]
    rcases List.mem_cons.mp h with h | h
    · simp [h]
    rcases List.mem_cons.mp h with h | h
    · simp [h]
    rcases List.mem_cons.mp h with h | h
    · simp [h]
    · simp at h
  · exact Or.inl h.1

theorem escL_no_newline {v : List Char} (h : '\n' ∉ v) : '\n' ∉ escL v := by
  intro hmem
  rcases mem_escL hmem with hc | hc
  · exact h hc
  · simp at hc

/-! ## Lemmas about lines: `Strings.Join` and `splitChar` -/

/-- Character-list form of joining with a newline separator. -/
def joinNl : List (List Char) → List Char
  | [] => []
  | [x] => x
  | x :: xs => x ++ '\n' :: joinNl xs

theorem Strings_Join_data (elems : List String) :
    (Strings.Join elems "\n").data = joinNl (elems.map String.data) := by
  induction elems with
  | nil => rfl
  | cons x xs ih =>
    cases xs with
    | nil => rfl
    | cons y ys =>
      have hd : ∀ a b : String, (a ++ b).data = a.data ++ b.data := fun _ _ => rfl
      show (x ++ "\n" ++ Strings.Join (y :: ys) "\n").data =
        x.data ++ '\n' :: joinNl ((y :: ys).map String.data)
      rw [hd, hd, ih, show ("\n" : String).data = ['\n'] from rfl, List.append_assoc]
      rfl

theorem splitChar_not_mem {sep : Char} {l : List Char} (h : sep ∉ l) :
    splitChar sep l = [l] := by
  induction l with
  | nil => rfl
  | cons c rest ih =>
    have hc : ¬ c = sep := fun hc => h (by simp [hc])
    have hr : sep ∉ rest := fun hm => h (List.mem_cons_of_mem _ hm)
    show (if c = sep then [] :: splitChar sep rest
      else match splitChar sep rest with
        | [] => [[c]]
        | l :: ls => (c :: l) :: ls) = [c :: rest]
    rw [if_neg hc, ih hr]

theorem splitChar_append {sep : Char} {l rest : List Char} (h : sep ∉ l) :
    splitChar sep (l ++ sep :: rest) = l :: splitChar sep rest := by
  induction l with
  | nil =>
    show (if sep = sep then [] :: splitChar sep rest
      else match splitChar sep rest with
        | [] => [[sep]]
        | l :: ls => (sep :: l) :: ls) = [] :: splitChar sep rest
    rw [if_pos rfl]
  | cons c l' ih =>
    have hc : ¬ c = sep := fun hc => h (by simp [hc])
    have hl : sep ∉ l' := fun hm => h (List.mem_cons_of_mem _ hm)
    show (if c = sep then [] :: splitChar sep (l' ++ sep :: rest)
      else match splitChar sep (l' ++ sep :: rest) with
        | [] => [[c]]
        | l :: ls => (c :: l) :: ls) = (c :: l') :: splitChar sep rest
    rw [if_neg hc, ih hl]

theorem splitChar_ne_nil (sep : Char) (l : List Char) :
    splitChar sep l ≠ [] := by
  induction l with
  | nil => simp [splitChar]
  | cons c rest ih =>
    show (if c = sep then [] :: splitChar sep rest
      else match splitChar sep rest with
        | [] => [[c]]
        | l :: ls => (c :: l) :: ls) ≠ []
    by_cases hc : c = sep
    · simp [hc]
    · rw [if_neg hc]
      cases hs : splitChar sep rest with
      | nil => simp
      | cons a as => simp

theorem split_join (ls : List (List Char)) (hne : ls ≠ [])
    (h : ∀ l ∈ ls, '\n' ∉ l) : splitChar '\n' (joinNl ls) = ls := by
  induction ls with
  | nil => exact absurd rfl hne
  | cons x xs ih =>
    cases xs with
    | nil => exact splitChar_not_mem (h x (by simp))
    | cons y ys =>
      show splitChar '\n' (x ++ '\n' :: joinNl (y :: ys)) = _
      rw [splitChar_append (h x (by simp)),
        ih (by simp) (fun l hl => h l (List.mem_cons_of_mem _ hl))]

theorem splitChar_length_two_le {sep : Char} {l : List Char} (h : sep ∈ l) :
    2 ≤ (splitChar sep l).length := by
  induction l with
  | nil => simp at h
  | cons c rest ih =>
    show 2 ≤ (if c = sep then [] :: splitChar sep rest
      else match splitChar sep rest with
        | [] => [[c]]
        | l :: ls => (c :: l) :: ls).length
    by_cases hc : c = sep
    · rw [if_pos hc]
      have := splitChar_ne_nil sep rest
      have hlen : 1 ≤ (splitChar sep rest).length := by
        cases hs : splitChar sep rest with
        | nil => exact absurd hs this
        | cons a as => simp
      simpa using Nat.succ_le_succ hlen
    · rw [if_neg hc]
      have hr : sep ∈ rest := by
        rcases List.mem_cons.mp h with h | h
        · exact absurd h.symm hc
        · exact h
      cases hs : splitChar sep rest with
      | nil => exact absurd hs (splitChar_ne_nil sep rest)
      | cons a as =>
        have := ih hr
        rw [hs] at this
        simpa using this

/-! ## Parsing a formatted line -/

theorem data_append (a b : String) : (a ++ b).data = a.data ++ b.data := rfl

theorem eqq_data : "='".data = ['=', '\''] := rfl

theorem occursIn_cons_false {pat : List Char} {c : Char} {rest : List Char}
    (h : occursIn pat (c :: rest) = false) :
    pat.isPrefixOf (c :: rest) = false ∧ occursIn pat rest = false := by
  have : (pat.isPrefixOf (c :: rest) || occursIn pat rest) = false := h
  exact Bool.or_eq_false_iff.mp this

theorem splitFirst_eqq {k : List Char} (t : List Char)
    (hk : occursIn "='".data k = false) :
    splitFirst "='".data (k ++ '=' :: '\'' :: t) = some (k, t) := by
  induction k with
  | nil =>
    show (if ("='".data).isPrefixOf ('=' :: '\'' :: t) then
        some (([] : List Char), ('=' :: '\'' :: t).drop ("='".data).length)
      else match splitFirst "='".data ('\'' :: t) with
        | none => none
        | some (k, r) => some ('=' :: k, r)) = some ([], t)
    rw [if_pos (by simpa [eqq_data] using isPrefixOf_append_self ['=', '\''] t)]
    rfl
  | cons c k' ih =>
    obtain ⟨h1, h2⟩ := occursIn_cons_false hk
    have hpre : ("='".data).isPrefixOf (c :: (k' ++ '=' :: '\'' :: t)) = false := by
      cases k' with
      | nil =>
        show ("='".data).isPrefixOf (c :: '=' :: '\'' :: t) = false
        rw [eqq_data]
        simp only [List.isPrefixOf_cons₂]
        rw [show (('\'' : Char) == '=') = false from by decide]
        simp
      | cons d k'' =>
        rw [eqq_data] at h1 ⊢
        simp only [List.cons_append]
        simp only [List.isPrefixOf_cons₂, List.isPrefixOf_nil_left,
          Bool.and_true] at h1 ⊢
        exact h1
    show (if ("='".data).isPrefixOf (c :: (k' ++ '=' :: '\'' :: t)) then
        some (([] : List Char), (c :: (k' ++ '=' :: '\'' :: t)).drop ("='".data).length)
      else match splitFirst "='".data (k' ++ '=' :: '\'' :: t) with
        | none => none
        | some (k, r) => some (c :: k, r)) = some (c :: k', t)
    rw [if_neg (by simp [hpre]), ih h2]

theorem isPrefixOf_export_append {k r : List Char}
    (h : ("export ".data).isPrefixOf k = false) :
    ("export ".data).isPrefixOf (k ++ '=' :: r) = false := by
  by_contra hc
  have hc' : ("export ".data).isPrefixOf (k ++ '=' :: r) = true := by
    simpa using hc
  obtain ⟨t, ht⟩ := List.isPrefixOf_iff_prefix.mp hc'
  rcases List.append_eq_append_iff.mp ht with ⟨a', ha, _⟩ | ⟨c', hcs, hr⟩
  · have : ("export ".data).isPrefixOf k = true := by
      rw [ha]
      exact isPrefixOf_append_self _ _
    rw [this] at h
    exact Bool.true_eq_false.mp h
  · cases c' with
    | nil =>
      have hk : k = "export ".data := by simpa using hcs.symm
      have : ("export ".data).isPrefixOf k = true := by
        rw [hk]
        simpa using isPrefixOf_append_self ("export ".data) []
      rw [this] at h
      exact Bool.true_eq_false.mp h
    | cons d c'' =>
      simp only [List.cons_append] at hr
      injection hr with h5 h6
      have hmem : '=' ∈ "export ".data := by
        rw [hcs, h5]
        simp
      revert hmem
      decide

theorem parseLine_fmt {k v : List Char}
    (hexp : ("export ".data).isPrefixOf k = false)
    (hocc : occursIn "='".data k = false) :
    parseLine (k ++ '=' :: '\'' :: (escL v ++ ['\''])) = some (k, v) := by
  unfold parseLine
  rw [if_neg (by simp [isPrefixOf_export_append hexp])]
  simp only [splitFirst_eqq (escL v ++ ['\'']) hocc, List.getLast?_concat,
    List.dropLast_concat]
  simp [unescape_escape]

/-! ## The shape of a formatted entry -/

theorem formatEntry_data_no_newline (e : Env) (pre k : String)
    (hv : '\n' ∉ (e.GetDefault k "").data) :
    (e.formatEntry pre k).data =
      pre.data ++ (k.data ++ '=' :: '\'' :: (escL (e.GetDefault k "").data ++ ['\''])) := by
  have hval : (if e.EscapeNewlines
      then Strings.Replace (SingleQuoteEscape (e.GetDefault k "")) "\n" "'$'\\n''"
      else SingleQuoteEscape (e.GetDefault k "")) =
      String.mk (escL (e.GetDefault k "").data) := by
    by_cases hf : e.EscapeNewlines
    · rw [if_pos hf]
      show String.mk (replaceL ("\n").data ("'$'\\n''").data
        (SingleQuoteEscape (e.GetDefault k "")).data) = _
      rw [SingleQuoteEscape_data, show ("\n" : String).data = ['\n'] from rfl,
        replaceL_single_not_mem (escL_no_newline hv)]
    · rw [if_neg hf]
      rfl
  show (pre ++ k ++ "='" ++ (if e.EscapeNewlines
      then Strings.Replace (SingleQuoteEscape (e.GetDefault k "")) "\n" "'$'\\n''"
      else SingleQuoteEscape (e.GetDefault k "")) ++ "'").data = _
  rw [hval]
  simp only [data_append, eqq_data, sq_data,
    show (String.mk (escL (e.GetDefault k "").data)).data
      = escL (e.GetDefault k "").data from rfl, List.append_assoc]
  rfl

theorem formatEntry_no_newline (e : Env) (pre k : String)
    (hpre : '\n' ∉ pre.data) (hk : '\n' ∉ k.data)
    (hv : '\n' ∉ (e.GetDefault k "").data) :
    '\n' ∉ (e.formatEntry pre k).data := by
  rw [formatEntry_data_no_newline e pre k hv]
  intro hmem
  simp only [List.mem_append, List.mem_cons] at hmem
  rcases hmem with h | h | h | h | h
  · exact hpre h
  · exact hk h
  · exact absurd h (by decide)
  · exact absurd h (by decide)
  rcases h with h | h | h
  · exact escL_no_newline hv h
  · exact absurd h (by decide)
  · simp at h

/-! ## Lookup lemmas for the association-list model of the Go map -/

theorem lookup_eq_none_of_not_mem {l : List (String × String)} {k : String}
    (h : k ∉ l.map Prod.fst) : l.lookup k = none := by
  rw [List.lookup_eq_none_iff]
  intro p hp
  have : p.1 ∈ l.map Prod.fst := List.mem_map_of_mem Prod.fst hp
  have hne : k ≠ p.1 := fun he => h (he ▸ this)
  simpa using hne

theorem lookup_eq_some_of_mem {l : List (String × String)} {k v : String}
    (hnd : (l.map Prod.fst).Nodup) (hm : (k, v) ∈ l) : l.lookup k = some v := by
  induction l with
  | nil => simp at hm
  | cons p rest ih =>
    rcases List.mem_cons.mp hm with h | h
    · subst h
      exact List.lookup_cons_self
    · have hnd' : (rest.map Prod.fst).Nodup := (List.nodup_cons.mp hnd).2
      have hp1 : p.1 ∉ rest.map Prod.fst := (List.nodup_cons.mp hnd).1
      have hkp : ¬ (k == p.1) = true := by
        intro hb
        have hk : k = p.1 := by simpa using hb
        exact hp1 (hk ▸ List.mem_map_of_mem Prod.fst h)
      rw [show (p.1, p.2) :: rest = p :: rest from by simp] at *
      rw [show (p :: rest).lookup k =
        (match k == p.1 with | true => some p.2 | false => rest.lookup k) from rfl]
      rw [Bool.eq_false_iff.mpr hkp]
      exact ih hnd' h

theorem lookup_mem {l : List (String × String)} {k v : String}
    (h : l.lookup k = some v) : (k, v) ∈ l := by
  induction l with
  | nil => simp at h
  | cons p rest ih =>
    rw [show (p :: rest).lookup k =
      (match k == p.1 with | true => some p.2 | false => rest.lookup k) from rfl] at h
    cases hb : k == p.1 with
    | true =>
      rw [hb] at h
      have hk : k = p.1 := by simpa using hb
      have hv : v = p.2 := by simpa using h.symm
      have hkv : (k, v) = p := by rw [hk, hv]
      rw [hkv]
      exact List.mem_cons_self _ _
    | false =>
      rw [hb] at h
      exact List.mem_cons_of_mem _ (ih h)

/-! ## The sort order: totality, transitivity, antisymmetry -/

theorem char_trichotomy (a b : Char) : a.val < b.val ∨ a = b ∨ b.val < a.val := by
  rcases Nat.lt_trichotomy a.val.toNat b.val.toNat with h | h | h
  · exact Or.inl h
  · exact Or.inr (Or.inl (Char.eq_of_val_eq (UInt32.ext h)))
  · exact Or.inr (Or.inr h)

theorem lexLe_cons_lt {a b : Char} (as bs : List Char) (h : a.val < b.val) :
    lexLe (a :: as) (b :: bs) = true := by
  show (if a.val < b.val then true else if a = b then lexLe as bs else false) = true
  rw [if_pos h]

theorem lexLe_cons_eq (a : Char) (as bs : List Char) :
    lexLe (a :: as) (a :: bs) = lexLe as bs := by
  have hirr : ¬ a.val < a.val := Nat.lt_irrefl _
  show (if a.val < a.val then true else if a = a then lexLe as bs else false) = _
  rw [if_neg hirr, if_pos rfl]

theorem lexLe_cons_gt {a b : Char} (as bs : List Char) (h : b.val < a.val) :
    lexLe (a :: as) (b :: bs) = false := by
  have hne : a ≠ b := by
    intro he
    subst he
    exact Nat.lt_irrefl _ h
  have hnlt : ¬ a.val < b.val := fun hlt => Nat.lt_irrefl _ (Nat.lt_trans hlt h)
  show (if a.val < b.val then true else if a = b then lexLe as bs else false) = false
  rw [if_neg hnlt, if_neg hne]

theorem lexLe_total : ∀ x y : List Char, lexLe x y = true ∨ lexLe y x = true := by
  intro x
  induction x with
  | nil => intro y; exact Or.inl rfl
  | cons a as ih =>
    intro y
    cases y with
    | nil => exact Or.inr rfl
    | cons b bs =>
      rcases char_trichotomy a b with h | h | h
      · exact Or.inl (lexLe_cons_lt as bs h)
      · subst h
        rw [lexLe_cons_eq, lexLe_cons_eq]
        exact ih bs
      · exact Or.inr (lexLe_cons_lt bs as h)

theorem lexLe_antisymm : ∀ x y : List Char,
    lexLe x y = true → lexLe y x = true → x = y := by
  intro x
  induction x with
  | nil =>
    intro y _ hyx
    cases y with
    | nil => rfl
    | cons b bs => exact absurd hyx (by simp [lexLe])
  | cons a as ih =>
    intro y hxy hyx
    cases y with
    | nil => exact absurd hxy (by simp [lexLe])
    | cons b bs =>
      rcases char_trichotomy a b with h | h | h
      · rw [lexLe_cons_gt bs as h] at hyx
        exact absurd hyx (by simp)
      · subst h
        rw [lexLe_cons_eq] at hxy hyx
        rw [ih bs hxy hyx]
      · rw [lexLe_cons_gt as bs h] at hxy
        exact absurd hxy (by simp)

theorem lexLe_trans : ∀ x y z : List Char,
    lexLe x y = true → lexLe y z = true → lexLe x z = true := by
  intro x
  induction x with
  | nil => intro y z _ _; rfl
  | cons a as ih =>
    intro y z hxy hyz
    cases y with
    | nil => exact absurd hxy (by simp [lexLe])
    | cons b bs =>
      cases z with
      | nil => exact absurd hyz (by simp [lexLe])
      | cons c cs =>
        rcases char_trichotomy a b with hab | hab | hab
        · rcases char_trichotomy b c with hbc | hbc | hbc
          · exact lexLe_cons_lt as cs (Nat.lt_trans hab hbc)
          · subst hbc
            exact lexLe_cons_lt as cs hab
          · rw [lexLe_cons_gt bs cs hbc] at hyz
            exact absurd hyz (by simp)
        · subst hab
          rcases char_trichotomy a c with hac | hac | hac
          · exact lexLe_cons_lt as cs hac
          · subst hac
            rw [lexLe_cons_eq] at hxy hyz ⊢
            exact ih bs cs hxy hyz
          · rw [lexLe_cons_gt bs cs hac] at hyz
            exact absurd hyz (by simp)
        · rw [lexLe_cons_gt as bs hab] at hxy
          exact absurd hxy (by simp)

instance : IsTotal String (fun a b => strLe a b = true) :=
  ⟨fun a b => lexLe_total a.data b.data⟩

instance : IsTrans String (fun a b => strLe a b = true) :=
  ⟨fun a b c => lexLe_trans a.data b.data c.data⟩

instance : IsAntisymm String (fun a b => strLe a b = true) :=
  ⟨fun a b h1 h2 => by
    have hd : a.data = b.data := lexLe_antisymm a.data b.data h1 h2
    cases a
    cases b
    exact congrArg String.mk hd⟩

/-! ## Lemmas about `Keys` -/

theorem Keys_perm (e : Env) : List.Perm e.Keys (e.env.map Prod.fst) :=
  List.perm_insertionSort _ _

theorem Keys_sorted (e : Env) : e.Keys.Sorted (fun a b => strLe a b = true) :=
  List.sorted_insertionSort _ _

theorem mem_Keys {e : Env} {k : String} : k ∈ e.Keys ↔ k ∈ e.env.map Prod.fst :=
  (Keys_perm e).mem_iff

theorem Keys_nodup {e : Env} (hnd : (e.env.map Prod.fst).Nodup) : e.Keys.Nodup :=
  (Keys_perm e).nodup_iff.mpr hnd

/-! ## Lemmas about `Set` and folds of `Set` -/

theorem lookup_filter_ne {l : List (String × String)} {k' k : String} (h : k' ≠ k) :
    (l.filter (fun p => p.1 != k)).lookup k' = l.lookup k' := by
  induction l with
  | nil => rfl
  | cons p rest ih =>
    obtain ⟨p1, p2⟩ := p
    by_cases hp : p1 = k
    · have hb : ((p1, p2).1 != k) = false := by simp [hp]
      rw [List.filter_cons_of_neg (by simp [hb]), ih]
      have hkp : (k' == p1) = false := by simp [hp ▸ h]
      simp only [List.lookup_cons, hkp]
    · have hb : ((p1, p2).1 != k) = true := by simp [hp]
      rw [List.filter_cons_of_pos (by simp [hb])]
      cases hkp : (k' == p1) with
      | true => simp only [List.lookup_cons, hkp]
      | false => simp only [List.lookup_cons, hkp, ih]

theorem Get_Set_self (e : Env) (k v : String) : (e.Set k v).Get k = some v :=
  List.lookup_cons_self

theorem Get_Set_other (e : Env) {k' k : String} (v : String) (h : k' ≠ k) :
    (e.Set k v).Get k' = e.Get k' := by
  show ((k, v) :: e.env.filter (fun p => p.1 != k)).lookup k' = e.env.lookup k'
  simp only [List.lookup_cons, show (k' == k) = false from by simp [h]]
  exact lookup_filter_ne h

theorem Get_foldl_Set : ∀ (ps : List (String × String)) (e0 : Env) (k : String),
    (ps.map Prod.fst).Nodup →
    (ps.foldl (fun acc p => acc.Set p.1 p.2) e0).Get k =
      (ps.lookup k).or (e0.Get k) := by
  intro ps
  induction ps with
  | nil =>
    intro e0 k _
    simp
  | cons p rest ih =>
    intro e0 k hnd
    obtain ⟨k1, v1⟩ := p
    have hnd' : (rest.map Prod.fst).Nodup := (List.nodup_cons.mp hnd).2
    have hp1 : k1 ∉ rest.map Prod.fst := by
      simpa using (List.nodup_cons.mp hnd).1
    show (rest.foldl (fun acc p => acc.Set p.1 p.2) (e0.Set k1 v1)).Get k = _
    rw [ih (e0.Set k1 v1) k hnd']
    by_cases hk : k = k1
    · subst hk
      rw [lookup_eq_none_of_not_mem hp1, Get_Set_self, List.lookup_cons_self]
      rfl
    · rw [Get_Set_other _ _ hk]
      simp only [List.lookup_cons, show (k == k1) = false from by simp [hk]]

theorem lookup_perm {l1 l2 : List (String × String)} (hp : List.Perm l1 l2)
    (hnd : (l1.map Prod.fst).Nodup) (k : String) :
    l1.lookup k = l2.lookup k := by
  cases h1 : l1.lookup k with
  | some v =>
    have hnd2 : (l2.map Prod.fst).Nodup := ((hp.map Prod.fst).nodup_iff).mp hnd
    exact (lookup_eq_some_of_mem hnd2 (hp.mem_iff.mp (lookup_mem h1))).symm
  | none =>
    symm
    apply lookup_eq_none_of_not_mem
    intro hmem
    obtain ⟨p, hp2, hpk⟩ := List.mem_map.mp hmem
    have hpl1 : p ∈ l1 := hp.mem_iff.mpr hp2
    have hne := List.lookup_eq_none_iff.mp h1 p hpl1
    rw [hpk] at hne
    simp at hne

theorem lookup_map_pairs (f : String → String) :
    ∀ (ks : List String), ks.Nodup → ∀ k : String,
      ((ks.map (fun k => (k, f k))).lookup k) =
        if k ∈ ks then some (f k) else none := by
  intro ks
  induction ks with
  | nil =>
    intro _ k
    simp
  | cons a as ih =>
    intro hnd k
    simp only [List.map_cons]
    by_cases hk : k = a
    · subst hk
      rw [List.lookup_cons_self]
      simp
    · simp only [List.lookup_cons, show (k == a) = false from by simp [hk]]
      rw [ih (List.nodup_cons.mp hnd).2 k]
      by_cases hm : k ∈ as
      · simp [hm, hk]
      · simp [hm, hk]

/-! ## The serialization's lines parse back -/

/-- Character-level form of one serialized `KEY='value'` line (empty
prefix). -/
def fmtLine (p : String × String) : List Char :=
  p.1.data ++ '=' :: '\'' :: (escL p.2.data ++ ['\''])

theorem fmtLine_not_isEmpty (p : String × String) :
    (fmtLine p).isEmpty = false := by
  unfold fmtLine
  cases p.1.data <;> rfl

theorem parseStep_fmtLine (acc : Env) {k v : String}
    (hexp : ("export ".data).isPrefixOf k.data = false)
    (hocc : occursIn "='".data k.data = false) :
    parseStep acc (fmtLine (k, v)) = Except.ok (acc.Set k v) := by
  unfold parseStep
  rw [fmtLine_not_isEmpty, if_neg Bool.false_ne_true,
    show parseLine (fmtLine (k, v)) = some (k.data, v.data) from
      parseLine_fmt hexp hocc]

theorem parse_fold_fmt : ∀ (ps : List (String × String)) (acc : Env),
    (∀ p ∈ ps, ("export ".data).isPrefixOf p.1.data = false ∧
      occursIn "='".data p.1.data = false) →
    (ps.map fmtLine).foldlM parseStep acc =
      Except.ok (ps.foldl (fun acc p => acc.Set p.1 p.2) acc) := by
  intro ps
  induction ps with
  | nil =>
    intro acc _
    rfl
  | cons p rest ih =>
    intro acc h
    obtain ⟨k, v⟩ := p
    obtain ⟨hexp, hocc⟩ := h (k, v) (by simp)
    simp only [List.map_cons, List.foldlM_cons]
    rw [parseStep_fmtLine acc hexp hocc]
    show (rest.map fmtLine).foldlM parseStep (acc.Set k v) = _
    exact ih (acc.Set k v) (fun q hq => h q (List.mem_cons_of_mem _ hq))

/-! ## The round trip -/

theorem Get_of_mem_Keys {e : Env} (hnd : (e.env.map Prod.fst).Nodup) {k : String}
    (hk : k ∈ e.Keys) :
    e.Get k = some (e.GetDefault k "") ∧ (k, e.GetDefault k "") ∈ e.env := by
  obtain ⟨p, hp, hpk⟩ := List.mem_map.mp (mem_Keys.mp hk)
  have hkp : (k, p.2) ∈ e.env := by
    have hkp2 : (k, p.2) = p := by rw [← hpk]
    rw [hkp2]
    exact hp
  have hl : e.Get k = some p.2 := lookup_eq_some_of_mem hnd hkp
  have hd : e.GetDefault k "" = p.2 := by
    unfold Env.GetDefault
    rw [hl]
    rfl
  exact ⟨by rw [hl, hd], by rw [hd]; exact hkp⟩

theorem EnvfileString_data (e : Env) :
    (e.EnvfileString).data =
      joinNl (e.Keys.map (fun k => (e.formatEntry "" k).data)) := by
  show (Strings.Join (e.Keys.map (e.formatEntry "")) "\n").data = _
  rw [Strings_Join_data, List.map_map]
  rfl

theorem formatEntry_fmtLine {e : Env} {k : String}
    (hv : '\n' ∉ (e.GetDefault k "").data) :
    (e.formatEntry "" k).data = fmtLine (k, e.GetDefault k "") := by
  rw [formatEntry_data_no_newline e "" k hv]
  rfl

/-- C1 (amended): parsing the plain-format serialization reproduces the
entries exactly, for every Env whose keys are representable in the
line-oriented format — no key contains a newline or the two-character
sequence equals-quote, and no key starts with the `export ` token — and
whose values contain no newline. (Keys with those characters, or values
with raw newlines, produce lines the format cannot represent faithfully;
see the counterexample for the claim as originally stated.) -/
theorem NewFromString_EnvfileString (e : Env)
    (hnd : (e.env.map Prod.fst).Nodup)
    (hkeys : ∀ p ∈ e.env, ("export ".data).isPrefixOf p.1.data = false ∧
      occursIn "='".data p.1.data = false ∧ '\n' ∉ p.1.data)
    (hvals : ∀ p ∈ e.env, '\n' ∉ p.2.data) :
    ∃ e', NewFromString e.EnvfileString = Except.ok e' ∧
      ∀ k, e'.Get k = e.Get k := by
  cases henv : e.env with
  | nil =>
    refine ⟨⟨"<unknown>", [], "", false⟩, ?_, ?_⟩
    · show (splitChar '\n' (e.EnvfileString).data).foldlM parseStep _ = _
      have hk : e.Keys = [] := by
        unfold Env.Keys
        rw [henv]
        rfl
      have hs : e.EnvfileString = "" := by
        unfold Env.EnvfileString Env.StringWithPrefixAndSeparator
        rw [hk]
        rfl
      rw [hs]
      rfl
    · intro k
      show none = e.env.lookup k
      rw [henv]
      rfl
  | cons q qs =>
    have hKne : e.Keys ≠ [] := by
      intro h0
      have hlen := (Keys_perm e).length_eq
      rw [h0, henv] at hlen
      simp at hlen
    refine ⟨(e.Keys.map (fun k => (k, e.GetDefault k ""))).foldl
      (fun acc p => acc.Set p.1 p.2) ⟨"<unknown>", [], "", false⟩, ?_, ?_⟩
    · show (splitChar '\n' (e.EnvfileString).data).foldlM parseStep _ = _
      have hlines : e.Keys.map (fun k => (e.formatEntry "" k).data) =
          (e.Keys.map (fun k => (k, e.GetDefault k ""))).map fmtLine := by
        rw [List.map_map]
        apply List.map_congr_left
        intro k hk
        have hv : '\n' ∉ (e.GetDefault k "").data :=
          hvals _ (Get_of_mem_Keys hnd hk).2
        exact formatEntry_fmtLine hv
      have hnlines : ∀ l ∈ (e.Keys.map (fun k => (k, e.GetDefault k ""))).map fmtLine,
          '\n' ∉ l := by
        intro l hl
        obtain ⟨p, hp, hfl⟩ := List.mem_map.mp hl
        obtain ⟨k, hkK, hkp⟩ := List.mem_map.mp hp
        subst hkp
        subst hfl
        have hv : '\n' ∉ (e.GetDefault k "").data :=
          hvals _ (Get_of_mem_Keys hnd hkK).2
        rw [← formatEntry_fmtLine hv]
        exact formatEntry_no_newline e "" k (by simp) 
          ((hkeys _ (Get_of_mem_Keys hnd hkK).2).2.2) hv
      have hsplit : splitChar '\n' (e.EnvfileString).data =
          (e.Keys.map (fun k => (k, e.GetDefault k ""))).map fmtLine := by
        rw [EnvfileString_data, hlines]
        apply split_join _ _ hnlines
        intro h0
        rw [List.map_eq_nil_iff] at h0
        rw [List.map_eq_nil_iff] at h0
        exact hKne h0
      rw [hsplit]
      exact parse_fold_fmt _ _ (by
        intro p hp
        obtain ⟨k, hkK, hkp⟩ := List.mem_map.mp hp
        subst hkp
        have hm := (Get_of_mem_Keys hnd hkK).2
        exact ⟨(hkeys _ hm).1, (hkeys _ hm).2.1⟩)
    · intro k
      have hfst : (e.Keys.map (fun k => (k, e.GetDefault k ""))).map Prod.fst =
          e.Keys := by
        rw [List.map_map]
        show e.Keys.map (fun a => a) = e.Keys
        exact List.map_id' e.Keys
      rw [Get_foldl_Set _ _ k (by rw [hfst]; exact Keys_nodup hnd),
        show ((⟨"<unknown>", [], "", false⟩ : Env).Get k) = none from rfl,
        lookup_map_pairs _ e.Keys (Keys_nodup hnd) k]
      by_cases hk : k ∈ e.Keys
      · rw [if_pos hk, (Get_of_mem_Keys hnd hk).1]
        rfl
      · rw [if_neg hk]
        have hnone : e.Get k = none :=
          lookup_eq_none_of_not_mem (fun hm => hk (mem_Keys.mpr hm))
        rw [hnone]
        rfl

/-! ## Character-level specification of the escaping -/

theorem escL_flatMap : ∀ v : List Char,
    escL v = v.flatMap (fun c => if c = '\'' then ['\'', '\\', '\'', '\''] else [c]) := by
  intro v
  induction v with
  | nil => rfl
  | cons c rest ih =>
    by_cases hc : c = '\''
    · subst hc
      rw [escL_cons_sq, ih]
      rfl
    · rw [escL_cons_ne rest hc, ih, List.flatMap_cons, if_neg hc]
      rfl

theorem escL_length_ge : ∀ v : List Char, v.length ≤ (escL v).length := by
  intro v
  induction v with
  | nil => simp [escL_nil]
  | cons c rest ih =>
    by_cases hc : c = '\''
    · subst hc
      rw [escL_cons_sq]
      simp only [List.length_append, List.length_cons, sqEsc_data]
      omega
    · rw [escL_cons_ne rest hc]
      simpa using ih

theorem escL_length_lt {v : List Char} (h : '\'' ∈ v) :
    v.length < (escL v).length := by
  induction v with
  | nil => simp at h
  | cons c rest ih =>
    by_cases hc : c = '\''
    · subst hc
      rw [escL_cons_sq]
      have := escL_length_ge rest
      simp only [List.length_append, List.length_cons, sqEsc_data]
      omega
    · have hr : '\'' ∈ rest := by
        rcases List.mem_cons.mp h with h | h
        · exact absurd h.symm hc
        · exact h
      rw [escL_cons_ne rest hc]
      simpa using ih hr

theorem escL_mem_sq {v : List Char} (h : '\'' ∈ v) : '\'' ∈ escL v := by
  induction v with
  | nil => simp at h
  | cons c rest ih =>
    by_cases hc : c = '\''
    · subst hc
      rw [escL_cons_sq]
      simp [sqEsc_data]
    · have hr : '\'' ∈ rest := by
        rcases List.mem_cons.mp h with h | h
        · exact absurd h.symm hc
        · exact h
      rw [escL_cons_ne rest hc]
      exact List.mem_cons_of_mem _ (ih hr)

theorem escL_mem_of_ne {x : Char} (hx : x ≠ '\'') : ∀ {v : List Char},
    x ∈ v → x ∈ escL v := by
  intro v h
  induction v with
  | nil => simp at h
  | cons c rest ih =>
    by_cases hc : c = '\''
    · subst hc
      have hr : x ∈ rest := by
        rcases List.mem_cons.mp h with h | h
        · exact absurd h hx
        · exact h
      rw [escL_cons_sq]
      exact List.mem_append.mpr (Or.inr (ih hr))
    · rw [escL_cons_ne rest hc]
      rcases List.mem_cons.mp h with h | h
      · simp [h]
      · exact List.mem_cons_of_mem _ (ih h)

/-! ## The export-bundle fold -/

theorem exportFold (e : Env) : ∀ (ks : List String) (w : TarWriter),
    w.failWrites = false →
    ks.foldl (fun w k =>
      (tarPut (tarPut w
        (TarOp.header ⟨k, 0o600, (e.GetDefault k "").utf8ByteSize⟩)).1
        (TarOp.content (e.GetDefault k ""))).1) w =
    ⟨w.ops ++ ks.flatMap (fun k =>
      [TarOp.header ⟨k, 0o600, (e.GetDefault k "").utf8ByteSize⟩,
       TarOp.content (e.GetDefault k "")]), false⟩ := by
  intro ks
  induction ks with
  | nil =>
    intro w hw
    obtain ⟨ops, fl⟩ := w
    simp only at hw
    subst hw
    simp
  | cons k ks ih =>
    intro w hw
    have hput1 : tarPut w
        (TarOp.header ⟨k, 0o600, (e.GetDefault k "").utf8ByteSize⟩) =
        (⟨w.ops ++ [TarOp.header ⟨k, 0o600, (e.GetDefault k "").utf8ByteSize⟩],
          false⟩, Except.ok ()) := by
      unfold tarPut
      rw [if_neg (by simp [hw])]
      obtain ⟨ops, fl⟩ := w
      simp only at hw
      subst hw
      rfl
    show ks.foldl _ (tarPut (tarPut w _).1 _).1 = _
    rw [hput1]
    have hput2 : tarPut
        (⟨w.ops ++ [TarOp.header ⟨k, 0o600, (e.GetDefault k "").utf8ByteSize⟩],
          false⟩ : TarWriter)
        (TarOp.content (e.GetDefault k "")) =
        (⟨(w.ops ++ [TarOp.header ⟨k, 0o600, (e.GetDefault k "").utf8ByteSize⟩]) ++
          [TarOp.content (e.GetDefault k "")], false⟩, Except.ok ()) := by
      unfold tarPut
      rw [if_neg (by simp)]
    rw [hput2, ih _ rfl]
    simp

theorem exportFold_fail (e : Env) : ∀ (ks : List String) (w : TarWriter),
    w.failWrites = true →
    ks.foldl (fun w k =>
      (tarPut (tarPut w
        (TarOp.header ⟨k, 0o600, (e.GetDefault k "").utf8ByteSize⟩)).1
        (TarOp.content (e.GetDefault k ""))).1) w = w := by
  intro ks
  induction ks with
  | nil => intro w _; rfl
  | cons k ks ih =>
    intro w hw
    have hput : ∀ op, tarPut w op = (w, Except.error "io error") := by
      intro op
      unfold tarPut
      rw [if_pos hw]
    show ks.foldl _ (tarPut (tarPut w _).1 _).1 = _
    rw [hput, hput]
    exact ih w hw

/-! ## The claims -/

/-- C2: `SingleQuoteEscape` replaces every literal single quote by the
four-character sequence quote-backslash-quote-quote and changes nothing
else (character-by-character specification); on `it's` it yields
`it'\''s`; applied a second time to a string that contained a quote it
yields a different, further-escaped string (it is not idempotent), in
particular on the already-escaped form of `it's`. -/
theorem claim2_single_quote_escape :
    (∀ v : String, (SingleQuoteEscape v).data =
      v.data.flatMap (fun c =>
        if c = '\'' then ['\'', '\\', '\'', '\''] else [c])) ∧
    SingleQuoteEscape "it's" = "it'\\''s" ∧
    (∀ v : String, '\'' ∈ v.data →
      SingleQuoteEscape (SingleQuoteEscape v) ≠ SingleQuoteEscape v) ∧
    SingleQuoteEscape (SingleQuoteEscape "it's") ≠ SingleQuoteEscape "it's" := by
  refine ⟨fun v => by rw [SingleQuoteEscape_data, escL_flatMap], rfl, ?_, by decide⟩
  intro v hv heq
  have hdata : (SingleQuoteEscape (SingleQuoteEscape v)).data =
      (SingleQuoteEscape v).data := congrArg String.data heq
  rw [SingleQuoteEscape_data, SingleQuoteEscape_data] at hdata
  have hlt : ((SingleQuoteEscape v).data).length <
      (escL (SingleQuoteEscape v).data).length := by
    apply escL_length_lt
    rw [SingleQuoteEscape_data]
    exact escL_mem_sq hv
  rw [SingleQuoteEscape_data, hdata] at hlt
  exact Nat.lt_irrefl _ hlt

/-- C5: `GetBoolDefault` returns the default when the key is absent, and
otherwise returns `v != "0"`: false exactly on the stored string `"0"`,
true on every other stored value including `""`, `"false"` and `"no"`. -/
theorem claim5_get_bool_default (e : Env) (k : String) (d : Bool) :
    (e.Get k = none → e.GetBoolDefault k d = d) ∧
    (e.Get k = some "0" → e.GetBoolDefault k d = false) ∧
    (e.Get k = some "" → e.GetBoolDefault k d = true) ∧
    (e.Get k = some "false" → e.GetBoolDefault k d = true) ∧
    (e.Get k = some "no" → e.GetBoolDefault k d = true) ∧
    (∀ v, e.Get k = some v → e.GetBoolDefault k d = (v != "0")) := by
  refine ⟨?_, ?_, ?_, ?_, ?_, ?_⟩
  · intro h
    unfold Env.GetBoolDefault
    rw [h]
  · intro h
    unfold Env.GetBoolDefault
    rw [h]
    rfl
  · intro h
    unfold Env.GetBoolDefault
    rw [h]
    rfl
  · intro h
    unfold Env.GetBoolDefault
    rw [h]
    rfl
  · intro h
    unfold Env.GetBoolDefault
    rw [h]
    rfl
  · intro v h
    unfold Env.GetBoolDefault
    rw [h]

/-- C7: `Write` on an Env with an empty backing path fails with the
distinct not-bound error and performs no filesystem access; with a
non-empty backing path it creates (truncates) the backing file and writes
the export-format serialization, surfacing any create or write error to
the caller. -/
theorem claim7_write (e : Env) (createErr writeErr : Option String) :
    (e.filename = "" →
      e.Write createErr writeErr =
        (Except.error "this Env was created unbound to a file", [])) ∧
    (e.filename ≠ "" → ∀ err, createErr = some err →
      e.Write createErr writeErr =
        (Except.error err, [FsOp.create e.filename])) ∧
    (e.filename ≠ "" → createErr = none → writeErr = none →
      e.Write createErr writeErr = (Except.ok (),
        [FsOp.create e.filename,
         FsOp.writeFile e.filename e.ExportfileString])) ∧
    (e.filename ≠ "" → createErr = none → ∀ err, writeErr = some err →
      e.Write createErr writeErr = (Except.error err,
        [FsOp.create e.filename,
         FsOp.writeFile e.filename e.ExportfileString])) := by
  refine ⟨?_, ?_, ?_, ?_⟩
  · intro h
    unfold Env.Write
    rw [if_pos h]
  · intro h err hc
    unfold Env.Write
    rw [if_neg h, hc]
  · intro h hc hw
    unfold Env.Write
    rw [if_neg h, hc, hw]
  · intro h hc err hw
    unfold Env.Write
    rw [if_neg h, hc, hw]

/-- C9: contrary to the propagation policy, `ExportBundle` never returns a
non-nil error: the results of `tarfile.WriteHeader` and `tarfile.Write`
are discarded and the function unconditionally returns nil, even against a
destination writer whose writes all fail (in which case nothing at all is
written to the destination and the caller is still told nothing). -/
theorem claim9_export_bundle_swallows_errors (e : Env) (dest : TarWriter) :
    (e.ExportBundle dest).2 = Except.ok () ∧
    (dest.failWrites = true → (e.ExportBundle dest).1.ops = dest.ops) := by
  refine ⟨rfl, ?_⟩
  intro h
  show (e.Keys.foldl (fun w k =>
    (tarPut (tarPut w
      (TarOp.header ⟨k, 0o600, (e.GetDefault k "").utf8ByteSize⟩)).1
      (TarOp.content (e.GetDefault k ""))).1) dest).ops = dest.ops
  rw [exportFold_fail e e.Keys dest h]

/-- C10: the default string rendering `String()` is the plain ENVFILE
serialization: it equals `EnvfileString()`, which is the
prefix-and-separator formatter applied with the empty prefix (no `export`)
and the newline separator. -/
theorem claim10_string_method (e : Env) :
    e.String = e.EnvfileString ∧
    e.String = e.StringWithPrefixAndSeparator "" "\n" :=
  ⟨rfl, rfl⟩

/-- C8: `ExportBundle` writes, per stored variable and in ascending sorted
key order, exactly one header (entry name the key, mode 0600, size the
UTF-8 byte length of the raw value) followed by the raw unescaped value
bytes; on `{A: "x", B: "y"}` this is exactly the two entries `A` then `B`,
each of size 1 and mode 0600 (384). -/
theorem claim8_export_bundle (e : Env) :
    (∀ w0 : TarWriter, w0.failWrites = false →
      (e.ExportBundle w0).1.ops = w0.ops ++ e.Keys.flatMap (fun k =>
        [TarOp.header ⟨k, 0o600, (e.GetDefault k "").utf8ByteSize⟩,
         TarOp.content (e.GetDefault k "")]) ∧
      (e.ExportBundle w0).2 = Except.ok ()) ∧
    e.Keys.Sorted (fun a b => strLe a b = true) ∧
    List.Perm e.Keys (e.env.map Prod.fst) ∧
    (Env.ExportBundle ⟨"n", [("A", "x"), ("B", "y")], "", false⟩
        ⟨[], false⟩).1.ops =
      [TarOp.header ⟨"A", 384, 1⟩, TarOp.content "x",
       TarOp.header ⟨"B", 384, 1⟩, TarOp.content "y"] := by
  refine ⟨?_, Keys_sorted e, Keys_perm e, rfl⟩
  intro w0 hw
  refine ⟨?_, rfl⟩
  show (e.Keys.foldl (fun w k =>
    (tarPut (tarPut w
      (TarOp.header ⟨k, 0o600, (e.GetDefault k "").utf8ByteSize⟩)).1
      (TarOp.content (e.GetDefault k ""))).1) w0).ops = _
  rw [exportFold e e.Keys w0 hw]

/-- C6: `Merge(other)` is union-with-override: after the merge, every key
of `other` maps to `other`'s value (overwriting the receiver's) and every
other key keeps the receiver's value — the lookup of the merged Env is
`other`'s lookup, falling back to the receiver's. -/
theorem claim6_merge (e other : Env) (k : String)
    (hnd : (other.env.map Prod.fst).Nodup) :
    (e.Merge other).Get k = (other.Get k).or (e.Get k) := by
  have hshape : e.Merge other =
      (other.Keys.map (fun k => (k, other.GetDefault k ""))).foldl
        (fun acc p => acc.Set p.1 p.2) e := by
    unfold Env.Merge
    rw [List.foldl_map]
  have hfst : (other.Keys.map (fun k => (k, other.GetDefault k ""))).map
      Prod.fst = other.Keys := by
    rw [List.map_map]
    show other.Keys.map (fun a => a) = other.Keys
    exact List.map_id' other.Keys
  rw [hshape, Get_foldl_Set _ _ k (by rw [hfst]; exact Keys_nodup hnd),
    lookup_map_pairs _ other.Keys (Keys_nodup hnd) k]
  by_cases hk : k ∈ other.Keys
  · rw [if_pos hk, (Get_of_mem_Keys hnd hk).1]
  · rw [if_neg hk]
    have hnone : other.Get k = none :=
      lookup_eq_none_of_not_mem (fun hm => hk (mem_Keys.mpr hm))
    rw [hnone]

/-- Sample receiver for the merge example `{A:1, B:2}`. -/
def mergeRecv : Env := ⟨"n", [("A", "1"), ("B", "2")], "", false⟩

/-- Sample argument for the merge example `{B:9, C:3}`. -/
def mergeOther : Env := ⟨"n", [("B", "9"), ("C", "3")], "", false⟩

/-- C6 witness: on the receiver `{A:1, B:2}` and argument `{B:9, C:3}` the
merged Env maps A to 1, B to 9 and C to 3. -/
theorem claim6_merge_witness :
    (mergeOther.env.map Prod.fst).Nodup ∧
    (mergeRecv.Merge mergeOther).Get "A" = some "1" ∧
    (mergeRecv.Merge mergeOther).Get "B" = some "9" ∧
    (mergeRecv.Merge mergeOther).Get "C" = some "3" :=
  ⟨by decide,
   (claim6_merge mergeRecv mergeOther "A" (by decide)).trans rfl,
   (claim6_merge mergeRecv mergeOther "B" (by decide)).trans rfl,
   (claim6_merge mergeRecv mergeOther "C" (by decide)).trans rfl⟩

/-- C4: `Keys` lists exactly the stored keys, sorted ascending in the
byte-wise lexicographic order, whatever order the underlying list holds
them in; consequently two Envs whose entry lists are permutations of one
another (with distinct keys and the same newline flag) have the same
`Keys` and the same serialization under every prefix and separator. -/
theorem claim4_keys_sorted (e : Env) :
    e.Keys.Sorted (fun a b => strLe a b = true) ∧
    List.Perm e.Keys (e.env.map Prod.fst) ∧
    (∀ e₂ : Env, List.Perm e.env e₂.env → (e.env.map Prod.fst).Nodup →
      e.EscapeNewlines = e₂.EscapeNewlines →
      e.Keys = e₂.Keys ∧
      ∀ pre sep, e.StringWithPrefixAndSeparator pre sep =
        e₂.StringWithPrefixAndSeparator pre sep) := by
  refine ⟨Keys_sorted e, Keys_perm e, ?_⟩
  intro e₂ hperm hnd hflag
  have hKeys : e.Keys = e₂.Keys := by
    apply List.eq_of_perm_of_sorted ?_ (Keys_sorted e) (Keys_sorted e₂)
    exact (Keys_perm e).trans ((hperm.map Prod.fst).trans (Keys_perm e₂).symm)
  refine ⟨hKeys, ?_⟩
  intro pre sep
  unfold Env.StringWithPrefixAndSeparator
  rw [hKeys]
  congr 1
  apply List.map_congr_left
  intro k _
  unfold Env.formatEntry
  have hget : e.GetDefault k "" = e₂.GetDefault k "" := by
    unfold Env.GetDefault Env.Get
    rw [lookup_perm hperm hnd k]
  rw [hget, hflag]

/-- C3: for a stored value, when `EscapeNewlines` is true the formatted
entry is the quote-escaped value with every newline further replaced by
the ANSI-C idiom `'$'\n''`, and the entry occupies exactly one physical
line (its text splits into one line); when the flag is false the
quote-escaped value is emitted verbatim, so a value containing a newline
makes the entry span at least two physical lines. -/
theorem claim3_newlines (e : Env) (pre k v : String)
    (hget : e.Get k = some v) (hk : '\n' ∉ k.data) (hpre : '\n' ∉ pre.data) :
    (e.EscapeNewlines = true →
      e.formatEntry pre k =
        pre ++ k ++ "='" ++
          Strings.Replace (SingleQuoteEscape v) "\n" "'$'\\n''" ++ "'" ∧
      (splitChar '\n' (e.formatEntry pre k).data).length = 1) ∧
    (e.EscapeNewlines = false →
      e.formatEntry pre k = pre ++ k ++ "='" ++ SingleQuoteEscape v ++ "'" ∧
      ('\n' ∈ v.data →
        2 ≤ (splitChar '\n' (e.formatEntry pre k).data).length)) := by
  have hgd : e.GetDefault k "" = v := by
    unfold Env.GetDefault
    rw [hget]
    rfl
  constructor
  · intro hf
    have heq : e.formatEntry pre k =
        pre ++ k ++ "='" ++
          Strings.Replace (SingleQuoteEscape v) "\n" "'$'\\n''" ++ "'" := by
      unfold Env.formatEntry
      rw [hgd]
      show (pre ++ k ++ "='" ++ (if e.EscapeNewlines = true
        then Strings.Replace (SingleQuoteEscape v) "\n" "'$'\\n''"
        else SingleQuoteEscape v) ++ "'") = _
      rw [if_pos hf]
    refine ⟨heq, ?_⟩
    have hnl : '\n' ∉ (e.formatEntry pre k).data := by
      rw [heq]
      simp only [data_append, List.mem_append, List.mem_cons]
      intro hmem
      rcases hmem with ((((h | h) | h) | h) | h)
      · exact hpre h
      · exact hk h
      · revert h
        decide
      · have hrep : '\n' ∈ replaceL ['\n'] ("'$'\\n''").data
            (SingleQuoteEscape v).data := h
        rcases mem_replaceL_single hrep with h | h
        · revert h
          decide
        · exact h.2 rfl
      · revert h
        decide
    rw [splitChar_not_mem hnl]
    rfl
  · intro hf
    have heq : e.formatEntry pre k =
        pre ++ k ++ "='" ++ SingleQuoteEscape v ++ "'" := by
      unfold Env.formatEntry
      rw [hgd]
      show (pre ++ k ++ "='" ++ (if e.EscapeNewlines = true
        then Strings.Replace (SingleQuoteEscape v) "\n" "'$'\\n''"
        else SingleQuoteEscape v) ++ "'") = _
      rw [if_neg (by simp [hf])]
    refine ⟨heq, ?_⟩
    intro hv
    apply splitChar_length_two_le
    rw [heq]
    simp only [data_append, List.mem_append]
    have hmem : '\n' ∈ (SingleQuoteEscape v).data := by
      rw [SingleQuoteEscape_data]
      exact escL_mem_of_ne (by decide) hv
    simp [hmem]

/-- Sample Env with a newline inside a value and the escape flag set. -/
def nlEnvT : Env := ⟨"n", [("K", "a\nb")], "", true⟩

/-- Sample Env with a newline inside a value and the escape flag unset. -/
def nlEnvF : Env := ⟨"n", [("K", "a\nb")], "", false⟩

/-- C3 witness: on the value `a<newline>b`, the flag-set Env formats the
entry onto exactly one physical line and the flag-unset Env onto at least
two. -/
theorem claim3_newlines_witness :
    (nlEnvT.Get "K" = some "a\nb" ∧ '\n' ∉ "K".data ∧
      '\n' ∉ ("" : String).data ∧ '\n' ∈ "a\nb".data) ∧
    (splitChar '\n' (nlEnvT.formatEntry "" "K").data).length = 1 ∧
    2 ≤ (splitChar '\n' (nlEnvF.formatEntry "" "K").data).length :=
  ⟨by decide,
   ((claim3_newlines nlEnvT "" "K" "a\nb" (by decide) (by decide)
      (by decide)).1 rfl).2,
   ((claim3_newlines nlEnvF "" "K" "a\nb" (by decide) (by decide)
      (by decide)).2 rfl).2 (by decide)⟩

/-- C1 counterexample to the claim as stated: an Env whose key contains a
raw newline serializes to two physical lines, the first of which (`A`) is
malformed, so parsing the serialization fails with a parse error instead
of reproducing the entries — the round trip does not hold for arbitrary
keys. -/
theorem claim1_roundtrip_counterexample :
    NewFromString (Env.EnvfileString ⟨"app", [("A\nB", "")], "", false⟩) =
      Except.error "parse error: A" := rfl

/-- Sample Env (distinct well-formed keys, a value with a quote) for the
round-trip witness. -/
def rtEnv : Env := ⟨"sample", [("B", "it's"), ("A", "x")], "", false⟩

/-- C1 witness: the round-trip hypotheses hold for `rtEnv` and parsing its
serialization reproduces its entries. -/
theorem claim1_roundtrip_witness :
    ((rtEnv.env.map Prod.fst).Nodup ∧
      (∀ p ∈ rtEnv.env, ("export ".data).isPrefixOf p.1.data = false ∧
        occursIn "='".data p.1.data = false ∧ '\n' ∉ p.1.data) ∧
      (∀ p ∈ rtEnv.env, '\n' ∉ p.2.data)) ∧
    (∃ e', NewFromString rtEnv.EnvfileString = Except.ok e' ∧
      ∀ k, e'.Get k = rtEnv.Get k) :=
  ⟨⟨by decide, by decide, by decide⟩,
   NewFromString_EnvfileString rtEnv (by decide) (by decide) (by decide)⟩
